import Mathlib

/-!
Verification of the square-wave template-fit kernel (`SquareWaveFitTest.C`).

The C++ source works over `std::bitset<36>` together with `float`
wave parameters.  The shallow embedding below models a bit vector as a
`List Bool` of length `nbits = 36`, and the numeric parameters as exact
rationals (`ℚ`): every numeric operation of the source (division by the
bit count, subtraction, `fmod`, order comparisons) is mirrored exactly,
with C's `fmod` (truncated division remainder) spelled out on `ℚ`.
-/

/-- Number of sample bits (`static const size_t nbits(36)`). -/
def nbits : ℕ := 36

/-- The bit count as a rational (`_fnbits`, the float copy of `nbits`). -/
def fnbits : ℚ := 36

/-- Bit-vector model of `std::bitset<nbits>` (`bset`). -/
abbrev bset := List Bool

/-- Truncation toward zero on `ℚ`, the rounding C uses inside `fmod`. -/
def truncQ (q : ℚ) : ℤ :=
  if 0 ≤ q.num then ((q.num.natAbs / q.den : ℕ) : ℤ)
  else -((q.num.natAbs / q.den : ℕ) : ℤ)

/-- C's `fmod` on rationals: `fmod(a,b) = a - b * trunc(a/b)`. -/
def fmodQ (a b : ℚ) : ℚ := a - b * truncQ (a / b)

/-- `squarewave(lambda, phase, width, x)` from the source: the binary
square wave, `true` on `[0, width)` after reducing `x - phase` modulo
`lambda` and wrapping a negative remainder up by `lambda`. -/
def squarewave (lambda phase width x : ℚ) : Bool :=
  let val := fmodQ (x - phase) lambda
  let val2 := if val < 0 then val + lambda else val
  decide (0 ≤ val2 ∧ val2 < width)

/-- `SquareWaveFitTest::setbits`: encode parameters into a bit vector,
bit `ibit` sampling the square wave at `x = (ibit + 0.5)/nbits`. -/
def setbits (lambda phase width : ℚ) : bset :=
  (List.range nbits).map
    (fun (ibit : ℕ) => squarewave lambda phase width (((ibit : ℚ) + 1/2) / fnbits))

/-- `SquareWaveFitTest::badParams`: the parameter-domain validator. -/
def badParams (lambda phase width : ℚ) : Bool :=
  decide (lambda < 2 / fnbits ∨ lambda > 1/2 ∨
    phase < 0 ∨ phase > lambda ∨
    width < 1 / fnbits ∨ width > lambda - 1 / fnbits)

/-- Hamming distance `(model ^ test).count()` between two bit vectors. -/
def overlap (m t : bset) : ℕ := (List.zipWith Bool.xor m t).count true

/-- The scan loop of `SquareWaveFitTest::bestOverlap`, carrying the
running index `imodel`, best index `retval` and best distance `bover`. -/
def bestLoop (t : bset) : List bset → ℕ → ℕ → ℕ → ℕ × ℕ
  | [], _, retval, bover => (retval, bover)
  | m :: rest, imodel, retval, bover =>
    let ov := overlap m t
    if ov < bover then bestLoop t rest (imodel + 1) imodel ov
    else bestLoop t rest (imodel + 1) retval bover

/-- `SquareWaveFitTest::bestOverlap`: exhaustive nearest-template search,
returning `(retval, bover)` with `retval` initialized to `0` and `bover`
to `nbits`. -/
def bestOverlap (lib : List bset) (t : bset) : ℕ × ℕ := bestLoop t lib 0 0 nbits

/-- `SquareWaveFitTest::setRandom`: perturb `model` into `rbits` using one
uniform draw `u ibit` per bit, in increasing bit order; a `true` model bit
stays `true` iff the draw is below `eff`, a `false` model bit becomes
`true` iff the draw is above `pur`. -/
def setRandom (model : bset) (rbits : bset) (eff pur : ℚ) (u : ℕ → ℚ) : bset :=
  (List.range nbits).foldl (fun rb ibit =>
    let rval := u ibit
    if model.getD ibit false then rb.set ibit (decide (rval < eff))
    else rb.set ibit (decide (rval > pur))) rbits

/-- The template-library parameter triples built by the constructor
`SquareWaveFitTest::SquareWaveFitTest`: the nested `push_back` loops over
`ilambda ∈ [2, nbits/2)`, `iphase ∈ [0, ilambda]`, `iwidth ∈ [1, ilambda-1)`,
recorded as an accumulating fold exactly mirroring the imperative loop. -/
def buildModels : List (ℚ × ℚ × ℚ) :=
  (List.range' 2 (nbits / 2 - 2)).foldl (fun acc (il : ℕ) =>
    (List.range (il + 1)).foldl (fun acc2 (ip : ℕ) =>
      (List.range' 1 (il - 2)).foldl (fun acc3 (iw : ℕ) =>
        acc3 ++ [((il : ℚ) / fnbits, (ip : ℚ) / fnbits, (iw : ℚ) / fnbits)]) acc2) acc) []

/-- The `_bitmodels` library: the encoded bit pattern of every stored triple. -/
def buildBits : List bset := buildModels.map (fun p => setbits p.1 p.2.1 p.2.2)

/-- The declaratively stated enumeration order of the library index
triples: wavelength step outermost, phase step middle, width step
innermost. -/
def enumParams : List (ℕ × ℕ × ℕ) :=
  (List.range' 2 (nbits / 2 - 2)).flatMap (fun il =>
    (List.range (il + 1)).flatMap (fun ip =>
      (List.range' 1 (il - 2)).map (fun iw => (il, ip, iw))))

/-- `SquareWaveFitTest::test`, stripped of the out-of-scope diagnostics:
validate, encode the model, search it, perturb once, search the
perturbed bits.  An invalid triple short-circuits to `-1` with no
encode/search result (`none`). -/
def test (lambda phase width eff pur : ℚ) (u : ℕ → ℚ) :
    ℤ × Option ((ℕ × ℕ) × (ℕ × ℕ)) :=
  if badParams lambda phase width then (-1, none)
  else
    let model := setbits lambda phase width
    let mres := bestOverlap buildBits model
    let rbits := setRandom model (List.replicate nbits false) eff pur u
    let rres := bestOverlap buildBits rbits
    (0, some (mres, rres))

/-! ### Helper lemmas about the Hamming distance `overlap` -/

lemma overlap_le_right (m t : bset) : overlap m t ≤ t.length := by
  refine le_trans (List.count_le_length _ _) ?_
  rw [List.length_zipWith]
  exact inf_le_right

lemma overlap_self (m : bset) : overlap m m = 0 := by
  induction m with
  | nil => rfl
  | cons a l ih => simp [overlap, List.count_cons] at ih ⊢; exact ih

lemma overlap_eq_zero_iff : ∀ (m t : bset), m.length = t.length →
    (overlap m t = 0 ↔ m = t)
  | [], [], _ => by simp [overlap]
  | [], b :: t, h => by simp at h
  | a :: m, [], h => by simp at h
  | a :: m, b :: t, h => by
    have ih := overlap_eq_zero_iff m t (by simpa using h)
    have hcons : overlap (a :: m) (b :: t) =
        overlap m t + (if Bool.xor a b then 1 else 0) := by
      simp [overlap, List.zipWith_cons_cons, List.count_cons]
    cases ha : Bool.xor a b with
    | false =>
      have hab : a = b := by cases a <;> cases b <;> simp_all
      subst hab
      rw [hcons, ha]
      simpa using ih
    | true =>
      have hab : a ≠ b := by cases a <;> cases b <;> simp_all
      rw [hcons, ha]
      simp [hab]

/-! ### The scan-loop invariant of `bestOverlap` -/

lemma bestLoop_spec (t : bset) (l : List bset) : ∀ (i r b : ℕ),
    (bestLoop t l i r b).2 ≤ b ∧
    (∀ m ∈ l, (bestLoop t l i r b).2 ≤ overlap m t) ∧
    ((bestLoop t l i r b = (r, b) ∧ ∀ m ∈ l, b ≤ overlap m t) ∨
      (∃ j, j < l.length ∧ (bestLoop t l i r b).1 = i + j ∧
        overlap (l.getD j []) t = (bestLoop t l i r b).2 ∧
        (bestLoop t l i r b).2 < b ∧
        ∀ k, k < j → (bestLoop t l i r b).2 < overlap (l.getD k []) t)) := by
  induction l with
  | nil =>
    intro i r b
    refine ⟨le_refl b, by simp, Or.inl ⟨rfl, by simp⟩⟩
  | cons m rest ih =>
    intro i r b
    by_cases h : overlap m t < b
    · have hstep : bestLoop t (m :: rest) i r b =
          bestLoop t rest (i + 1) i (overlap m t) := by
        simp [bestLoop, h]
      obtain ⟨hA, hB, hC⟩ := ih (i + 1) i (overlap m t)
      rw [hstep]
      refine ⟨le_trans hA (le_of_lt h), ?_, ?_⟩
      · intro m' hm'
        rcases List.mem_cons.mp hm' with hm' | hm'
        · rw [hm']; exact hA
        · exact hB m' hm'
      · rcases hC with ⟨heq, -⟩ | ⟨j, hj, h1, h2, h3, h4⟩
        · right
          refine ⟨0, by simp, ?_, ?_, ?_, fun k hk => absurd hk (Nat.not_lt_zero k)⟩
          · rw [heq]; simp
          · rw [heq, List.getD_cons_zero]
          · rw [heq]; exact h
        · right
          refine ⟨j + 1, by simpa using hj, by omega, ?_, lt_trans h3 h, ?_⟩
          · rw [List.getD_cons_succ]; exact h2
          · intro k hk
            rcases k with _ | k
            · rw [List.getD_cons_zero]; exact h3
            · rw [List.getD_cons_succ]; exact h4 k (by omega)
    · have hstep : bestLoop t (m :: rest) i r b = bestLoop t rest (i + 1) r b := by
        simp [bestLoop, h]
      obtain ⟨hA, hB, hC⟩ := ih (i + 1) r b
      rw [hstep]
      refine ⟨hA, ?_, ?_⟩
      · intro m' hm'
        rcases List.mem_cons.mp hm' with hm' | hm'
        · rw [hm']; exact le_trans hA (le_of_not_lt h)
        · exact hB m' hm'
      · rcases hC with ⟨heq, hall⟩ | ⟨j, hj, h1, h2, h3, h4⟩
        · left
          refine ⟨heq, ?_⟩
          intro m' hm'
          rcases List.mem_cons.mp hm' with hm' | hm'
          · rw [hm']; exact le_of_not_lt h
          · exact hall m' hm'
        · right
          refine ⟨j + 1, by simpa using hj, by omega, ?_, h3, ?_⟩
          · rw [List.getD_cons_succ]; exact h2
          · intro k hk
            rcases k with _ | k
            · rw [List.getD_cons_zero]
              exact lt_of_lt_of_le h3 (le_of_not_lt h)
            · rw [List.getD_cons_succ]; exact h4 k (by omega)

/-! ### Helper lemmas about the `setRandom` write loop -/

lemma bset_ext (a b : bset) (hlen : a.length = b.length)
    (h : ∀ j, a.getD j false = b.getD j false) : a = b := by
  apply List.ext_getElem?
  intro n
  by_cases hn : n < a.length
  · have hb : n < b.length := hlen ▸ hn
    have := h n
    rw [List.getD_eq_getElem a false hn, List.getD_eq_getElem b false hb] at this
    rw [List.getElem?_eq_getElem hn, List.getElem?_eq_getElem hb, this]
  · have hb : ¬ n < b.length := hlen ▸ hn
    rw [List.getElem?_eq_none (le_of_not_lt hn), List.getElem?_eq_none (le_of_not_lt hb)]

lemma length_setFold (v : ℕ → Bool) :
    ∀ (l : List ℕ) (r : bset),
      (l.foldl (fun rb i => rb.set i (v i)) r).length = r.length
  | [], _ => rfl
  | i :: l, r => by
    rw [List.foldl_cons, length_setFold v l, List.length_set]

lemma getD_setFold (v : ℕ → Bool) :
    ∀ (l : List ℕ) (r : bset) (j : ℕ),
      (l.foldl (fun rb i => rb.set i (v i)) r).getD j false =
        if j ∈ l ∧ j < r.length then v j else r.getD j false
  | [], r, j => by simp
  | i :: l, r, j => by
    rw [List.foldl_cons, getD_setFold v l, List.length_set]
    by_cases hmem : j ∈ l ∧ j < r.length
    · rw [if_pos hmem, if_pos ⟨List.mem_cons_of_mem i hmem.1, hmem.2⟩]
    · rw [if_neg hmem]
      by_cases hij : j = i
      · subst hij
        by_cases hlt : j < r.length
        · rw [List.getD_eq_getElem?_getD, List.getElem?_set, if_pos rfl, if_pos hlt,
            if_pos ⟨List.mem_cons_self j l, hlt⟩]
          rfl
        · rw [List.getD_eq_getElem?_getD, List.getElem?_set, if_pos rfl, if_neg hlt,
            if_neg (fun hc => hlt hc.2), List.getD_eq_getElem?_getD,
            List.getElem?_eq_none (le_of_not_lt hlt)]
      · rw [List.getD_eq_getElem?_getD, List.getElem?_set,
          if_neg (fun hc => hij hc.symm), ← List.getD_eq_getElem?_getD]
        have : ¬ (j ∈ i :: l ∧ j < r.length) := by
          intro hc
          rcases List.mem_cons.mp hc.1 with hji | hjl
          · exact hij hji
          · exact hmem ⟨hjl, hc.2⟩
        rw [if_neg this]

/-- The write loop of `setRandom` is a pure per-index overwrite: each step
sets bit `ibit` to a value depending only on `model`, `eff`, `pur`, `u`. -/
lemma setRandom_eq_setFold (model : bset) (r : bset) (eff pur : ℚ) (u : ℕ → ℚ) :
    setRandom model r eff pur u =
      (List.range nbits).foldl (fun rb i => rb.set i
        (if model.getD i false then decide (u i < eff) else decide (u i > pur))) r := by
  unfold setRandom
  congr 1
  funext rb i
  show (if model.getD i false then rb.set i (decide (u i < eff))
        else rb.set i (decide (u i > pur))) =
      rb.set i (if model.getD i false then decide (u i < eff) else decide (u i > pur))
  rw [apply_ite (rb.set i)]

/-! ### The accumulating constructor loops as flat enumerations -/

lemma foldl_append_singleton {α β : Type} (h : β → α) :
    ∀ (xs : List β) (acc : List α),
      xs.foldl (fun a x => a ++ [h x]) acc = acc ++ xs.map h
  | [], acc => by simp
  | x :: xs, acc => by
    rw [List.foldl_cons, foldl_append_singleton h xs, List.map_cons,
      List.append_assoc, List.singleton_append]

lemma foldl_append_flat {α β : Type} (F : β → List α) :
    ∀ (xs : List β) (acc : List α),
      xs.foldl (fun a x => a ++ F x) acc = acc ++ xs.flatMap F
  | [], acc => by simp
  | x :: xs, acc => by
    rw [List.foldl_cons, foldl_append_flat F xs, List.flatMap_cons, List.append_assoc]

/-- The imperative `push_back` loops of the constructor produce exactly the
nested flat enumeration `enumParams`, embedded by dividing each index step
by the bit count. -/
lemma buildModels_eq_enumParams_map :
    buildModels = enumParams.map
      (fun p => ((p.1 : ℚ) / fnbits, (p.2.1 : ℚ) / fnbits, (p.2.2 : ℚ) / fnbits)) := by
  have mid : ∀ (il : ℕ) (acc : List (ℚ × ℚ × ℚ)),
      (List.range (il + 1)).foldl (fun acc2 (ip : ℕ) =>
        (List.range' 1 (il - 2)).foldl (fun acc3 (iw : ℕ) =>
          acc3 ++ [((il : ℚ) / fnbits, (ip : ℚ) / fnbits, (iw : ℚ) / fnbits)]) acc2) acc =
      acc ++ (List.range (il + 1)).flatMap (fun (ip : ℕ) =>
        (List.range' 1 (il - 2)).map
          (fun (iw : ℕ) => ((il : ℚ) / fnbits, (ip : ℚ) / fnbits, (iw : ℚ) / fnbits))) := by
    intro il acc
    have hf : (fun (acc2 : List (ℚ × ℚ × ℚ)) (ip : ℕ) =>
          (List.range' 1 (il - 2)).foldl (fun acc3 (iw : ℕ) =>
            acc3 ++ [((il : ℚ) / fnbits, (ip : ℚ) / fnbits, (iw : ℚ) / fnbits)]) acc2) =
        (fun (acc2 : List (ℚ × ℚ × ℚ)) (ip : ℕ) => acc2 ++ (List.range' 1 (il - 2)).map
          (fun (iw : ℕ) => ((il : ℚ) / fnbits, (ip : ℚ) / fnbits, (iw : ℚ) / fnbits))) := by
      funext acc2 ip
      exact foldl_append_singleton
        (fun iw : ℕ => ((il : ℚ) / fnbits, (ip : ℚ) / fnbits, (iw : ℚ) / fnbits)) _ acc2
    rw [hf, foldl_append_flat]
  have outer :
      buildModels = [] ++ (List.range' 2 (nbits / 2 - 2)).flatMap (fun (il : ℕ) =>
        (List.range (il + 1)).flatMap (fun (ip : ℕ) =>
          (List.range' 1 (il - 2)).map
            (fun (iw : ℕ) => ((il : ℚ) / fnbits, (ip : ℚ) / fnbits, (iw : ℚ) / fnbits)))) := by
    unfold buildModels
    have hf : (fun (acc : List (ℚ × ℚ × ℚ)) (il : ℕ) =>
          (List.range (il + 1)).foldl (fun acc2 (ip : ℕ) =>
            (List.range' 1 (il - 2)).foldl (fun acc3 (iw : ℕ) =>
              acc3 ++ [((il : ℚ) / fnbits, (ip : ℚ) / fnbits, (iw : ℚ) / fnbits)]) acc2) acc) =
        (fun (acc : List (ℚ × ℚ × ℚ)) (il : ℕ) =>
          acc ++ (List.range (il + 1)).flatMap (fun (ip : ℕ) =>
          (List.range' 1 (il - 2)).map
            (fun (iw : ℕ) => ((il : ℚ) / fnbits, (ip : ℚ) / fnbits, (iw : ℚ) / fnbits)))) := by
      funext acc il
      exact mid il acc
    rw [hf, foldl_append_flat]
  rw [outer, List.nil_append]
  unfold enumParams
  rw [List.map_flatMap]
  refine congrArg (List.flatMap (List.range' 2 (nbits / 2 - 2))) (funext fun il => ?_)
  rw [List.map_flatMap]
  refine congrArg (List.flatMap (List.range (il + 1))) (funext fun ip => ?_)
  rw [List.map_map]
  rfl

lemma getD_mem_of_lt (lib : List bset) (j : ℕ) (hj : j < lib.length) :
    lib.getD j [] ∈ lib := by
  rw [List.getD_eq_getElem lib [] hj]
  exact List.getElem_mem hj

/-- C1 (counterexample): invoked on an empty template library, the search
does not fail: it returns the pair `(0, nbits)`, i.e. index `0` — a
meaningless index, since there is no template at all — with the initial
best distance `nbits`.  No `InvalidState` failure exists in the code. -/
theorem bestOverlap_empty_returns_index :
    bestOverlap [] (List.replicate nbits false) = (0, nbits) := rfl

/-- C1 (amended): on an empty library `bestOverlap` returns index `0`
with reported distance `nbits` (the initialization values), for every
observation; it does not fail fast. -/
theorem bestOverlap_empty (t : bset) : bestOverlap [] t = (0, nbits) := rfl

/-- C3: on a non-empty library and a 36-bit observation, `bestOverlap`
returns the minimum Hamming distance over all templates together with the
smallest index achieving it (strict less-than comparison: first occurrence
wins ties). -/
theorem bestOverlap_min_firstArgmin (lib : List bset) (t : bset)
    (hne : lib ≠ []) (ht : t.length = nbits) :
    (bestOverlap lib t).1 < lib.length ∧
    overlap (lib.getD (bestOverlap lib t).1 []) t = (bestOverlap lib t).2 ∧
    (∀ j, j < lib.length → (bestOverlap lib t).2 ≤ overlap (lib.getD j []) t) ∧
    (∀ j, j < (bestOverlap lib t).1 → (bestOverlap lib t).2 < overlap (lib.getD j []) t) := by
  obtain ⟨hA, hB, hC⟩ := bestLoop_spec t lib 0 0 nbits
  have hbo : bestOverlap lib t = bestLoop t lib 0 0 nbits := rfl
  rw [hbo]
  have hub : ∀ j, j < lib.length → overlap (lib.getD j []) t ≤ nbits := by
    intro j hj
    exact le_trans (overlap_le_right _ _) (le_of_eq ht)
  rcases hC with ⟨heq, hall⟩ | ⟨j, hj, h1, h2, h3, h4⟩
  · have hlen : 0 < lib.length := List.length_pos.mpr hne
    have hail : ∀ j, j < lib.length → overlap (lib.getD j []) t = nbits := by
      intro j hj
      exact le_antisymm (hub j hj) (hall _ (getD_mem_of_lt lib j hj))
    rw [heq]
    refine ⟨hlen, ?_, ?_, ?_⟩
    · simpa using hail 0 hlen
    · intro j hj
      simpa using (hail j hj).ge
    · intro j hj
      simp at hj
  · have h1' : (bestLoop t lib 0 0 nbits).1 = j := by omega
    refine ⟨?_, ?_, ?_, ?_⟩
    · rw [h1']; exact hj
    · rw [h1']; exact h2
    · intro k hk
      exact hB _ (getD_mem_of_lt lib k hk)
    · intro k hk
      rw [h1'] at hk
      exact h4 k hk

/-- Witness for C3: a concrete two-template library where the all-false
observation matches template 1 exactly, so the search returns index 1 and
distance 0, the minimum, with all the argmin properties. -/
theorem bestOverlap_min_firstArgmin_witness :
    (bestOverlap [List.replicate nbits true, List.replicate nbits false]
        (List.replicate nbits false)).1 <
      ([List.replicate nbits true, List.replicate nbits false] : List bset).length ∧
    overlap (([List.replicate nbits true, List.replicate nbits false] : List bset).getD
        (bestOverlap [List.replicate nbits true, List.replicate nbits false]
          (List.replicate nbits false)).1 []) (List.replicate nbits false) =
      (bestOverlap [List.replicate nbits true, List.replicate nbits false]
        (List.replicate nbits false)).2 ∧
    (∀ j, j < ([List.replicate nbits true, List.replicate nbits false] : List bset).length →
      (bestOverlap [List.replicate nbits true, List.replicate nbits false]
          (List.replicate nbits false)).2 ≤
        overlap (([List.replicate nbits true, List.replicate nbits false] : List bset).getD j [])
          (List.replicate nbits false)) ∧
    (∀ j, j < (bestOverlap [List.replicate nbits true, List.replicate nbits false]
        (List.replicate nbits false)).1 →
      (bestOverlap [List.replicate nbits true, List.replicate nbits false]
          (List.replicate nbits false)).2 <
        overlap (([List.replicate nbits true, List.replicate nbits false] : List bset).getD j [])
          (List.replicate nbits false)) :=
  bestOverlap_min_firstArgmin [List.replicate nbits true, List.replicate nbits false]
    (List.replicate nbits false) (by decide) (by decide)

/-- C6: searching with the exact bit pattern of a library entry returns
distance 0, an index no later than that entry's own, whose stored pattern
is the observation itself, and every strictly earlier entry has a
different bit pattern (so absent earlier duplicates the entry's own index
is returned; duplicates resolve to the lowest index with that pattern). -/
theorem bestOverlap_self_match (lib : List bset) (j : ℕ) (t : bset)
    (hj : j < lib.length) (hjt : lib.getD j [] = t)
    (hlen : ∀ m ∈ lib, m.length = nbits) :
    (bestOverlap lib t).2 = 0 ∧ (bestOverlap lib t).1 ≤ j ∧
      lib.getD (bestOverlap lib t).1 [] = t ∧
      (∀ k, k < (bestOverlap lib t).1 → lib.getD k [] ≠ t) := by
  obtain ⟨hA, hB, hC⟩ := bestLoop_spec t lib 0 0 nbits
  have hbo : bestOverlap lib t = bestLoop t lib 0 0 nbits := rfl
  rw [hbo]
  have hzero : overlap (lib.getD j []) t = 0 := by
    rw [hjt]; exact overlap_self t
  have hp2 : (bestLoop t lib 0 0 nbits).2 = 0 :=
    Nat.le_zero.mp (hzero ▸ hB _ (getD_mem_of_lt lib j hj))
  rcases hC with ⟨heq, hall⟩ | ⟨j0, hj0, h1, h2, h3, h4⟩
  · exfalso
    have hge := hall _ (getD_mem_of_lt lib j hj)
    rw [hzero] at hge
    simp [nbits] at hge
  · have h1' : (bestLoop t lib 0 0 nbits).1 = j0 := by omega
    refine ⟨hp2, ?_, ?_, ?_⟩
    · rw [h1']
      by_contra hgt
      push_neg at hgt
      have hlt := h4 j hgt
      rw [hzero, hp2] at hlt
      exact lt_irrefl 0 hlt
    · rw [h1']
      have hlen1 : (lib.getD j0 []).length = nbits := hlen _ (getD_mem_of_lt lib j0 hj0)
      have hlent : t.length = nbits := by
        rw [← hjt]; exact hlen _ (getD_mem_of_lt lib j hj)
      have hz0 : overlap (lib.getD j0 []) t = 0 := by rw [h2, hp2]
      exact (overlap_eq_zero_iff _ _ (by rw [hlen1, hlent])).mp hz0
    · intro k hk
      rw [h1'] at hk
      have hlt := h4 k hk
      rw [hp2] at hlt
      intro hkt
      rw [hkt, overlap_self t] at hlt
      exact lt_irrefl 0 hlt

/-- Witness for C6: in a concrete two-template library, searching with the
exact pattern of entry 1 (all-false) returns distance 0 and index 1, and
entry 0 differs from the observation. -/
theorem bestOverlap_self_match_witness :
    (bestOverlap [List.replicate nbits true, List.replicate nbits false]
        (List.replicate nbits false)).2 = 0 ∧
    (bestOverlap [List.replicate nbits true, List.replicate nbits false]
        (List.replicate nbits false)).1 ≤ 1 ∧
    ([List.replicate nbits true, List.replicate nbits false] : List bset).getD
        (bestOverlap [List.replicate nbits true, List.replicate nbits false]
          (List.replicate nbits false)).1 [] = List.replicate nbits false ∧
    (∀ k, k < (bestOverlap [List.replicate nbits true, List.replicate nbits false]
        (List.replicate nbits false)).1 →
      ([List.replicate nbits true, List.replicate nbits false] : List bset).getD k [] ≠
        List.replicate nbits false) :=
  bestOverlap_self_match [List.replicate nbits true, List.replicate nbits false] 1
    (List.replicate nbits false) (by decide) (by decide) (by decide)

lemma getD_out (r : bset) (j : ℕ) (h : r.length ≤ j) : r.getD j false = false := by
  rw [List.getD_eq_getElem?_getD, List.getElem?_eq_none h]
  rfl

/-- C2 (counterexample): with efficiency = purity = 0 and the all-zero
draw sequence — each draw `0` lies in `[0,1)` — perturbing the all-false
model reproduces the all-false vector, not its bitwise complement: a
`false` model bit needs `draw > 0` to flip, which fails at draw `0`. -/
theorem setRandom_saturation_cex :
    ((0 : ℚ) ≤ 0 ∧ (0 : ℚ) < 1) ∧
      ¬ (setRandom (List.replicate nbits false) (List.replicate nbits false) 0 0 (fun _ => 0)
        = (List.replicate nbits false).map (fun b => !b)) := by
  constructor
  · exact ⟨le_refl 0, by norm_num⟩
  · decide

/-- C2 (amended): with all draws in `[0,1)`, efficiency = purity = 1
reproduces the model bit-for-bit; with all draws additionally strictly
positive, efficiency = purity = 0 produces the exact bitwise complement.
(The complement half fails at a draw of exactly 0, hence the extra
strict-positivity condition.) -/
theorem setRandom_saturation (model rbits : bset) (u : ℕ → ℚ)
    (hm : model.length = nbits) (hr : rbits.length = nbits)
    (hu : ∀ i, 0 ≤ u i ∧ u i < 1) :
    setRandom model rbits 1 1 u = model ∧
      ((∀ i, 0 < u i) → setRandom model rbits 0 0 u = model.map (fun b => !b)) := by
  constructor
  · rw [setRandom_eq_setFold]
    apply bset_ext
    · rw [length_setFold, hr, hm]
    · intro j
      rw [getD_setFold, hr]
      by_cases hj : j < nbits
      · rw [if_pos ⟨List.mem_range.mpr hj, hj⟩]
        have h1 : decide (u j < 1) = true := decide_eq_true (hu j).2
        have h2 : decide (u j > 1) = false := by
          rw [decide_eq_false_iff_not]
          exact not_lt.mpr (le_of_lt (hu j).2)
        cases hb : model.getD j false <;> simp [hb, h1, h2]
      · rw [if_neg (fun hc => hj hc.2)]
        rw [getD_out rbits j (by omega), getD_out model j (by omega)]
  · intro hpos
    rw [setRandom_eq_setFold]
    apply bset_ext
    · rw [length_setFold, hr, List.length_map, hm]
    · intro j
      rw [getD_setFold, hr]
      by_cases hj : j < nbits
      · rw [if_pos ⟨List.mem_range.mpr hj, hj⟩]
        have h1 : decide (u j < 0) = false := by
          rw [decide_eq_false_iff_not]
          exact not_lt.mpr (hu j).1
        have h2 : decide (u j > 0) = true := decide_eq_true (hpos j)
        have hjm : j < model.length := by omega
        have hmap : (model.map (fun b => !b)).getD j false = !(model.getD j false) := by
          rw [List.getD_eq_getElem (model.map (fun b => !b)) false
              (by rw [List.length_map]; exact hjm),
            List.getD_eq_getElem model false hjm, List.getElem_map]
        rw [hmap]
        cases hb : model.getD j false <;> simp [hb, h1, h2]
      · rw [if_neg (fun hc => hj hc.2)]
        rw [getD_out rbits j (by omega),
          getD_out (model.map (fun b => !b)) j (by rw [List.length_map]; omega)]

/-- Witness for C2 (amended): a concrete all-true model, all-false prior
output vector and constant draw 1/2 reproduce the model at efficiency =
purity = 1 and its complement at efficiency = purity = 0. -/
theorem setRandom_saturation_witness :
    setRandom (List.replicate nbits true) (List.replicate nbits false) 1 1 (fun _ => 1/2)
        = List.replicate nbits true ∧
      ((∀ i : ℕ, (0 : ℚ) < (fun _ : ℕ => (1 : ℚ)/2) i) →
        setRandom (List.replicate nbits true) (List.replicate nbits false) 0 0 (fun _ => 1/2)
          = (List.replicate nbits true).map (fun b => !b)) :=
  setRandom_saturation (List.replicate nbits true) (List.replicate nbits false)
    (fun _ => 1/2) (by decide) (by decide) (fun _ => ⟨by norm_num, by norm_num⟩)

/-- C10: the perturbed output depends only on the model, efficiency,
purity and the draws: every bit index `0..nbits-1` is overwritten, so two
calls that reuse output vectors with different prior contents (both of
the fixed width) produce identical observations. -/
theorem setRandom_prior_independent (model : bset) (eff pur : ℚ) (u : ℕ → ℚ)
    (r1 r2 : bset) (h1 : r1.length = nbits) (h2 : r2.length = nbits) :
    setRandom model r1 eff pur u = setRandom model r2 eff pur u := by
  rw [setRandom_eq_setFold, setRandom_eq_setFold]
  apply bset_ext
  · rw [length_setFold, length_setFold, h1, h2]
  · intro j
    rw [getD_setFold, getD_setFold, h1, h2]
    by_cases hj : j ∈ List.range nbits ∧ j < nbits
    · rw [if_pos hj, if_pos hj]
    · rw [if_neg hj, if_neg hj]
      have hout : nbits ≤ j := by
        rcases Nat.lt_or_ge j nbits with hlt | hge
        · exact absurd ⟨List.mem_range.mpr hlt, hlt⟩ hj
        · exact hge
      rw [getD_out r1 j (by omega), getD_out r2 j (by omega)]

/-- Witness for C10: reusing an all-false and an all-true prior output
vector with the same model and draws gives identical results. -/
theorem setRandom_prior_independent_witness :
    setRandom (List.replicate nbits true) (List.replicate nbits false) (1/2) (1/2)
        (fun _ => 1/4) =
      setRandom (List.replicate nbits true) (List.replicate nbits true) (1/2) (1/2)
        (fun _ => 1/4) :=
  setRandom_prior_independent (List.replicate nbits true) (1/2) (1/2) (fun _ => 1/4)
    (List.replicate nbits false) (List.replicate nbits true) (by decide) (by decide)

/-- C5: for valid parameters and a sample index `i < nbits`, the encoded
bit `i` is true exactly when, with `x = (i + 1/2)/nbits`, the value
`(x - phase) mod lambda` — wrapped by adding `lambda` when negative —
lies in `[0, width)`. -/
theorem setbits_spec (lambda phase width : ℚ)
    (_hv : badParams lambda phase width = false) (i : ℕ) (hi : i < nbits) :
    ((setbits lambda phase width).getD i false = true ↔
      (let x := ((i : ℚ) + 1/2) / fnbits
       let val := fmodQ (x - phase) lambda
       let wrapped := if val < 0 then val + lambda else val
       0 ≤ wrapped ∧ wrapped < width)) := by
  have hbit : (setbits lambda phase width).getD i false =
      squarewave lambda phase width (((i : ℚ) + 1/2) / fnbits) := by
    unfold setbits
    rw [List.getD_eq_getElem _ false
        (by rw [List.length_map, List.length_range]; exact hi),
      List.getElem_map, List.getElem_range]
  rw [hbit]
  simp [squarewave]

/-- Witness for C5: at λ = 6/36, φ = 0, w = 2/36 (the §8 scenario) bit 0
is set, obtained from `setbits_spec` by evaluating the wrapped-modulus
condition at i = 0. -/
theorem setbits_spec_witness :
    (setbits (6/36) 0 (2/36)).getD 0 false = true :=
  (setbits_spec (6/36) 0 (2/36) (by with_unfolding_all decide) 0 (by decide)).mpr
    (by with_unfolding_all decide)

/-- C7: `badParams` rejects exactly when λ < 2/N ∨ λ > 1/2 ∨ φ < 0 ∨
φ > λ ∨ w < 1/N ∨ w > λ − 1/N; the minimal triple (2/36, 0, 1/36) is
accepted as legal, and for any ε > 0, λ = 1/2 + ε, φ = −ε and w = 0 are
each rejected as illegal. -/
theorem badParams_spec :
    (∀ lambda phase width : ℚ, badParams lambda phase width = true ↔
      (lambda < 2 / fnbits ∨ lambda > 1/2 ∨ phase < 0 ∨ phase > lambda ∨
        width < 1 / fnbits ∨ width > lambda - 1 / fnbits)) ∧
    badParams (2/36) 0 (1/36) = false ∧
    (∀ (lambda phase width eps : ℚ), 0 < eps →
      badParams (1/2 + eps) phase width = true ∧
      badParams lambda (-eps) width = true ∧
      badParams lambda phase 0 = true) := by
  refine ⟨?_, ?_, ?_⟩
  · intro l p w
    simp [badParams]
  · unfold badParams
    rw [decide_eq_false_iff_not]
    push_neg
    simp only [fnbits]
    norm_num
  · intro l p w eps heps
    refine ⟨?_, ?_, ?_⟩
    · unfold badParams
      rw [decide_eq_true_eq]
      exact Or.inr (Or.inl (by linarith))
    · unfold badParams
      rw [decide_eq_true_eq]
      exact Or.inr (Or.inr (Or.inl (by linarith)))
    · unfold badParams
      rw [decide_eq_true_eq]
      refine Or.inr (Or.inr (Or.inr (Or.inr (Or.inl ?_))))
      simp only [fnbits]
      norm_num

/-- Witness for C7: at ε = 1/100, the out-of-range wavelength, negative
phase and zero width are each rejected. -/
theorem badParams_spec_witness :
    badParams (1/2 + 1/100) 0 0 = true ∧ badParams (6/36) (-(1/100)) 0 = true ∧
      badParams (6/36) 0 0 = true :=
  badParams_spec.2.2 (6/36) 0 0 (1/100) (by norm_num)

/-- C8: a trial run on a parameter triple failing validation reports `-1`
and produces no encode/search result at all (no silent clamping or
correction takes place). -/
theorem test_invalid_params (lambda phase width eff pur : ℚ) (u : ℕ → ℚ)
    (h : badParams lambda phase width = true) :
    test lambda phase width eff pur u = (-1, none) := by
  unfold test
  rw [if_pos h]

/-- Witness for C8: the invalid triple (0, 0, 0) short-circuits to -1. -/
theorem test_invalid_params_witness :
    test 0 0 0 1 1 (fun _ => 0) = (-1, none) :=
  test_invalid_params 0 0 0 1 1 (fun _ => 0) (by with_unfolding_all decide)

set_option maxRecDepth 100000 in
/-- C4: the built template library enumerates wavelength steps 2 through
nbits/2 − 1 (outer), phase steps 0 through iλ (middle) and width steps 1
through iλ − 2 (inner), in exactly that nested order (`enumParams`), and
its size equals Σ over iλ in [2, nbits/2 − 1] of (iλ+1)(iλ−2), which for
nbits = 36 is 1600. -/
theorem buildModels_enumeration :
    buildModels = enumParams.map
        (fun p => ((p.1 : ℚ) / fnbits, (p.2.1 : ℚ) / fnbits, (p.2.2 : ℚ) / fnbits)) ∧
      buildModels.length = ∑ il ∈ Finset.Icc 2 (nbits / 2 - 1), (il + 1) * (il - 2) ∧
      buildModels.length = 1600 := by
  have hlen : enumParams.length = 1600 := by with_unfolding_all decide
  have hsum : (∑ il ∈ Finset.Icc 2 (nbits / 2 - 1), (il + 1) * (il - 2)) = 1600 := by decide
  refine ⟨buildModels_eq_enumParams_map, ?_, ?_⟩
  · rw [buildModels_eq_enumParams_map, List.length_map, hlen, hsum]
  · rw [buildModels_eq_enumParams_map, List.length_map, hlen]

/-- C9: every parameter triple (λ, φ, w) stored in the built library
passes the validity check: `badParams` evaluates to false on all of the
stored `(_lvec, _p0vec, _fvec)` entries. -/
theorem buildModels_all_valid :
    buildModels.all (fun p => !(badParams p.1 p.2.1 p.2.2)) = true := by
  rw [buildModels_eq_enumParams_map, List.all_eq_true]
  intro q hq
  rw [List.mem_map] at hq
  obtain ⟨p, hp, rfl⟩ := hq
  unfold enumParams at hp
  rw [List.mem_flatMap] at hp
  obtain ⟨il, hil, hp⟩ := hp
  rw [List.mem_flatMap] at hp
  obtain ⟨ip, hip, hp⟩ := hp
  rw [List.mem_map] at hp
  obtain ⟨iw, hiw, rfl⟩ := hp
  rw [List.mem_range'_1] at hil hiw
  rw [List.mem_range] at hip
  have h2 : 2 ≤ il := hil.1
  have h17 : il ≤ 17 := by
    have := hil.2
    simp [nbits] at this
    omega
  have hip' : ip ≤ il := by omega
  have hiw1 : 1 ≤ iw := hiw.1
  have hiw2 : iw + 2 ≤ il := by
    have := hiw.2
    omega
  have hq2 : (2 : ℚ) ≤ il := by exact_mod_cast h2
  have hq17 : (il : ℚ) ≤ 17 := by exact_mod_cast h17
  have hqip : (ip : ℚ) ≤ il := by exact_mod_cast hip'
  have hqip0 : (0 : ℚ) ≤ ip := by positivity
  have hqiw1 : (1 : ℚ) ≤ iw := by exact_mod_cast hiw1
  have hqiw2 : (iw : ℚ) + 2 ≤ il := by exact_mod_cast hiw2
  rw [Bool.not_eq_true']
  unfold badParams
  rw [decide_eq_false_iff_not]
  push_neg
  simp only [fnbits]
  refine ⟨by linarith, by linarith, by linarith, by linarith, by linarith, by linarith⟩
